import Mathlib

/-!
Shallow embedding of the gradient interpolation engine of the `palette`
crate (`src/palette/src/gradient.rs`), together with theorems settling the
spec claims about it.

Modelling conventions:
* The scalar type `C::Scalar` (a float in the source) is modelled by `ℚ`,
  so that all domain arithmetic is exact.
* The `Mix` trait is a one-method capability class with the scalar fixed
  to the model scalar `ℚ`.
* `Vec<(C::Scalar, C)>` becomes `List (ℚ × C)`; the non-emptiness that the
  constructors assert (a panic in the source) is carried as a structure
  invariant, mirroring the data-model invariant `length ≥ 1`.
* Rust `usize` arithmetic becomes `Nat` arithmetic; every truncating `Nat`
  subtraction below occurs only where the source is guarded the same way.
-/

namespace Palette

/-- The `Mix` trait: blend two values by a factor (scalar model `ℚ`). -/
class Mix (C : Type) where
  mix : C → C → ℚ → C

/-- Model of the crate's `clamp(v, min, max)` helper used by `Mix`
implementations such as `Luma::mix`: bound `v` into `[lo, hi]`. -/
def clampScalar (v lo hi : ℚ) : ℚ :=
  if v < lo then lo else if v > hi then hi else v

/-- Model of the `Mix` implementation for a single-channel value
(`Luma::mix`): clamp the factor to `[0, 1]`, then affinely interpolate. -/
instance : Mix ℚ :=
  ⟨fun a b factor => a + clampScalar factor 0 1 * (b - a)⟩

/-- `Range`: a domain range for gradient slices, two optional bounds.
(`from` is a Lean keyword, hence the primed field names.) -/
structure Range where
  from' : Option ℚ
  to' : Option ℚ
deriving DecidableEq

/-- `Range::clamp`: bound `x` from below by `from` (if present), then from
above by `to` (if present); direct translation of the two-step body. -/
def Range.clamp (r : Range) (x : ℚ) : ℚ :=
  let x1 := max (r.from'.getD x) x
  min (r.to'.getD x1) x1

/-- The first early-return guard of `Range::constrain`:
`other.from` and `self.to` both present with `other.from ≥ self.to`. -/
def Range.collapseHi (self other : Range) : Bool :=
  match other.from', self.to' with
  | some f, some t => decide (f ≥ t)
  | _, _ => false

/-- The second early-return guard of `Range::constrain`:
`other.to` and `self.from` both present with `other.to ≤ self.from`. -/
def Range.collapseLo (self other : Range) : Bool :=
  match other.to', self.from' with
  | some t, some f => decide (t ≤ f)
  | _, _ => false

/-- The `from` field of the fall-through result of `Range::constrain`:
max of the present `from` bounds, or whichever is present, or absent. -/
def optFrom : Option ℚ → Option ℚ → Option ℚ
  | some s, some o => some (max s o)
  | some s, none => some s
  | none, some o => some o
  | none, none => none

/-- The `to` field of the fall-through result of `Range::constrain`:
min of the present `to` bounds, or whichever is present, or absent. -/
def optTo : Option ℚ → Option ℚ → Option ℚ
  | some s, some o => some (min s o)
  | some s, none => some s
  | none, some o => some o
  | none, none => none

/-- `Range::constrain`: intersect two ranges, with the two early-return
degenerate collapses of the source, in source order. -/
def Range.constrain (self other : Range) : Range :=
  if self.collapseHi other then ⟨self.to', self.to'⟩
  else if self.collapseLo other then ⟨self.from', self.from'⟩
  else ⟨optFrom self.from' other.from', optTo self.to' other.to'⟩

/-- `Gradient<C>`: the ordered control-point list `Vec<(C::Scalar, C)>`,
with the `length ≥ 1` invariant that both constructors assert. -/
structure Gradient (C : Type) [Mix C] where
  points : List (ℚ × C)
  nonempty : points ≠ []

/-- `Gradient::new`: evenly spaced colors over `[0, 1]`; control point `i`
gets position `i * step_size` with `step_size = 1 / max(len - 1, 1)`. -/
def Gradient.new {C : Type} [Mix C] (colors : List C) (h : colors ≠ []) :
    Gradient C :=
  ⟨colors.enum.map fun ic =>
      ((ic.1 : ℚ) * (1 / ((max (colors.length - 1) 1 : ℕ) : ℚ)), ic.2), by
    simp only [ne_eq, List.map_eq_nil_iff, List.enum_eq_nil]
    exact h⟩

/-- `Gradient::with_domain`: use the supplied `(position, value)` pairs
verbatim (no sorting, no validation beyond non-emptiness). -/
def Gradient.with_domain {C : Type} [Mix C] (colors : List (ℚ × C))
    (h : colors ≠ []) : Gradient C :=
  ⟨colors, h⟩

/-- `Gradient::domain`: `(first.position, last.position)` verbatim. -/
def Gradient.domain {C : Type} [Mix C] (g : Gradient C) : ℚ × ℚ :=
  ((g.points.head g.nonempty).1, (g.points.getLast g.nonempty).1)

/-- The mutable loop state of the binary search in `Gradient::get`:
`min_index`, `max_index`, `min`, `max`, `min_color`, `max_color`. -/
structure LoopState (C : Type) where
  minIdx : Nat
  maxIdx : Nat
  minP : ℚ
  maxP : ℚ
  minC : C
  maxC : C

/-- The `while min_index < max_index - 1` loop of `Gradient::get`. The
probe `self.0[index]` is always in range in every reachable call; the
`getD` default is never used. -/
def getLoop {C : Type} (points : List (ℚ × C)) (i : ℚ) (s : LoopState C) :
    LoopState C :=
  if h : s.minIdx < s.maxIdx - 1 then
    if i ≤ (points.getD (s.minIdx + (s.maxIdx - s.minIdx) / 2)
        (s.minP, s.minC)).1 then
      getLoop points i
        ⟨s.minIdx, s.minIdx + (s.maxIdx - s.minIdx) / 2, s.minP,
          (points.getD (s.minIdx + (s.maxIdx - s.minIdx) / 2)
            (s.minP, s.minC)).1,
          s.minC,
          (points.getD (s.minIdx + (s.maxIdx - s.minIdx) / 2)
            (s.minP, s.minC)).2⟩
    else
      getLoop points i
        ⟨s.minIdx + (s.maxIdx - s.minIdx) / 2, s.maxIdx,
          (points.getD (s.minIdx + (s.maxIdx - s.minIdx) / 2)
            (s.minP, s.minC)).1,
          s.maxP,
          (points.getD (s.minIdx + (s.maxIdx - s.minIdx) / 2)
            (s.minP, s.minC)).2,
          s.maxC⟩
  else s
termination_by s.maxIdx - s.minIdx
decreasing_by
  · have h2 : s.minIdx + 2 ≤ s.maxIdx := by omega
    have hpos : 0 < s.maxIdx - s.minIdx := by omega
    have hdiv : (s.maxIdx - s.minIdx) / 2 < s.maxIdx - s.minIdx :=
      Nat.div_lt_self hpos (by norm_num)
    omega
  · have h2 : s.minIdx + 2 ≤ s.maxIdx := by omega
    have hdivpos : 0 < (s.maxIdx - s.minIdx) / 2 :=
      Nat.div_pos (by omega) (by norm_num)
    have hdiv : (s.maxIdx - s.minIdx) / 2 < s.maxIdx - s.minIdx :=
      Nat.div_lt_self (by omega) (by norm_num)
    omega

/-- The initial binary-search state of `Gradient::get`: indices `0` and
`len - 1`, with the first and last control points' positions and values. -/
def Gradient.getLoopInit {C : Type} [Mix C] (g : Gradient C) : LoopState C :=
  ⟨0, g.points.length - 1,
    (g.points.head g.nonempty).1, (g.points.getLast g.nonempty).1,
    (g.points.head g.nonempty).2, (g.points.getLast g.nonempty).2⟩

/-- `Gradient::get`: clamp to the nearest control point outside the
domain, otherwise binary-search the bracketing adjacent pair and blend. -/
def Gradient.get {C : Type} [Mix C] (g : Gradient C) (i : ℚ) : C :=
  if i ≤ (g.points.head g.nonempty).1 then (g.points.head g.nonempty).2
  else if i ≥ (g.points.getLast g.nonempty).1 then
    (g.points.getLast g.nonempty).2
  else
    Mix.mix (getLoop g.points i g.getLoopInit).minC
      (getLoop g.points i g.getLoopInit).maxC
      ((i - (getLoop g.points i g.getLoopInit).minP) /
        ((getLoop g.points i g.getLoopInit).maxP -
          (getLoop g.points i g.getLoopInit).minP))

/-- `Slice<C>`: a gradient together with a restricting range. The Rust
borrow `&Gradient<C>` is modelled by embedding the (immutable) value. -/
structure Slice (C : Type) [Mix C] where
  gradient : Gradient C
  range : Range

/-- `Gradient::slice`. -/
def Gradient.slice {C : Type} [Mix C] (g : Gradient C) (r : Range) :
    Slice C :=
  ⟨g, r⟩

/-- `Slice::get`: delegate to the parent gradient at the clamped position. -/
def Slice.get {C : Type} [Mix C] (s : Slice C) (i : ℚ) : C :=
  s.gradient.get (s.range.clamp i)

/-- `Slice::domain`: the range's bounds when both are present, otherwise
fall back to the parent's domain for the missing side(s). -/
def Slice.domain {C : Type} [Mix C] (s : Slice C) : ℚ × ℚ :=
  match s.range.from', s.range.to' with
  | some f, some t => (f, t)
  | _, _ =>
    (s.range.from'.getD s.gradient.domain.1,
     s.range.to'.getD s.gradient.domain.2)

/-- `Slice::slice`: constrain the range, keeping the same parent. -/
def Slice.slice {C : Type} [Mix C] (s : Slice C) (r : Range) : Slice C :=
  ⟨s.gradient, s.range.constrain r⟩

/-- `MaybeSlice`: the tagged source of a `Take` iterator. -/
inductive MaybeSlice (C : Type) [Mix C] where
  | notSlice (g : Gradient C)
  | slice (s : Slice C)

/-- `MaybeSlice::get`: forward to the appropriate `get`. -/
def MaybeSlice.get {C : Type} [Mix C] : MaybeSlice C → ℚ → C
  | .notSlice g, i => g.get i
  | .slice s, i => s.get i

/-- `Take<C>`: the evenly spaced sampling iterator state. -/
structure Take (C : Type) [Mix C] where
  gradient : MaybeSlice C
  from' : ℚ
  diff : ℚ
  len : Nat
  from_head : Nat
  from_end : Nat

/-- `Iterator::next` for `Take`, in state-passing style: `some` carries
the yielded value and the successor state, `none` means exhausted. -/
def Take.next {C : Type} [Mix C] (t : Take C) : Option (C × Take C) :=
  if t.from_head + t.from_end < t.len then
    if t.len = 1 then
      some (t.gradient.get t.from', { t with from_head := t.from_head + 1 })
    else
      some (t.gradient.get
        (t.from' + (t.diff / ((t.len - 1 : ℕ) : ℚ)) * (t.from_head : ℚ)),
        { t with from_head := t.from_head + 1 })
  else
    none

/-- `DoubleEndedIterator::next_back` for `Take`, state-passing style. -/
def Take.next_back {C : Type} [Mix C] (t : Take C) : Option (C × Take C) :=
  if t.from_head + t.from_end < t.len then
    if t.len = 1 then
      some (t.gradient.get t.from', { t with from_end := t.from_end + 1 })
    else
      some (t.gradient.get
        (t.from' + (t.diff / ((t.len - 1 : ℕ) : ℚ)) *
          ((t.len - t.from_end - 1 : ℕ) : ℚ)),
        { t with from_end := t.from_end + 1 })
  else
    none

/-- `Take::size_hint`: `(len - from_head - from_end)` as both bounds. -/
def Take.size_hint {C : Type} [Mix C] (t : Take C) : Nat × Option Nat :=
  (t.len - t.from_head - t.from_end,
   some (t.len - t.from_head - t.from_end))

/-- `Gradient::take`: sample `n` evenly spaced positions over the domain. -/
def Gradient.take {C : Type} [Mix C] (g : Gradient C) (n : Nat) : Take C :=
  ⟨MaybeSlice.notSlice g, g.domain.1, g.domain.2 - g.domain.1, n, 0, 0⟩

/-- `Slice::take`: sample `n` evenly spaced positions over the slice's
domain. -/
def Slice.take {C : Type} [Mix C] (s : Slice C) (n : Nat) : Take C :=
  ⟨MaybeSlice.slice s, s.domain.1, s.domain.2 - s.domain.1, n, 0, 0⟩

/-- Reading a `Take` fully forward: repeated `next` until `none`
(`collect` on the iterator). -/
def Take.collect {C : Type} [Mix C] (t : Take C) : List C :=
  match h : t.next with
  | none => []
  | some ct => ct.1 :: ct.2.collect
termination_by t.len - t.from_head - t.from_end
decreasing_by
  simp only [Take.next] at h
  split at h
  · split at h <;> simp only [Option.some.injEq] at h <;>
      obtain ⟨rfl⟩ := h.symm <;> simp <;> omega
  · exact absurd h (by simp)

/-- Reading a `Take` fully backward: repeated `next_back` until `none`
(`rev().collect()` read in consumption order). -/
def Take.collect_back {C : Type} [Mix C] (t : Take C) : List C :=
  match h : t.next_back with
  | none => []
  | some ct => ct.1 :: ct.2.collect_back
termination_by t.len - t.from_head - t.from_end
decreasing_by
  simp only [Take.next_back] at h
  split at h
  · split at h <;> simp only [Option.some.injEq] at h <;>
      obtain ⟨rfl⟩ := h.symm <;> simp <;> omega
  · exact absurd h (by simp)

/-- The value a `Take` yields for sample index `k`: the boundary value
when `len = 1`, otherwise the source sampled at
`from + (diff / (len - 1)) * k` (the index-to-position computation shared
by `next` and `next_back`). -/
def Take.sample {C : Type} [Mix C] (t : Take C) (k : Nat) : C :=
  if t.len = 1 then t.gradient.get t.from'
  else t.gradient.get
    (t.from' + (t.diff / ((t.len - 1 : ℕ) : ℚ)) * (k : ℚ))

/-- `Take` states reachable from `Gradient::take` or `Slice::take` by any
interleaving of `next` and `next_back` calls. -/
inductive Take.Reachable {C : Type} [Mix C] : Take C → Prop
  | fresh_gradient (g : Gradient C) (n : Nat) : Take.Reachable (g.take n)
  | fresh_slice (s : Slice C) (n : Nat) : Take.Reachable (s.take n)
  | step {t t' : Take C} {c : C} : Take.Reachable t →
      t.next = some (c, t') → Take.Reachable t'
  | step_back {t t' : Take C} {c : C} : Take.Reachable t →
      t.next_back = some (c, t') → Take.Reachable t'

/-- A two-stop gradient over `ℚ`, used as concrete input for witnesses
(value `1` at position `0` and value `0` at position `2`). -/
def gradTwo : Gradient ℚ := Gradient.with_domain [(0, 1), (2, 0)] (by simp)

/-- A degenerate but validly sorted (non-decreasing) gradient with both
control points at position `0`. -/
def gradDup : Gradient ℚ := Gradient.with_domain [(0, 7), (0, 9)] (by simp)

/-- The three-value input list for the C4 witness. -/
def colorsThree : List ℚ := [10, 20, 30]

/-- The binary-search loop invariant of `Gradient::get`: the indices are
ordered and in bounds, the cached positions/values agree with the list,
and the probe position is bracketed as `minP < i ≤ maxP`. -/
def LoopInv {C : Type} (points : List (ℚ × C)) (i : ℚ) (s : LoopState C) :
    Prop :=
  s.minIdx < s.maxIdx ∧ s.maxIdx < points.length ∧
  points[s.minIdx]? = some (s.minP, s.minC) ∧
  points[s.maxIdx]? = some (s.maxP, s.maxC) ∧
  s.minP < i ∧ i ≤ s.maxP

/-- The spec's description of `Range::constrain` (claim C7), written from
the spec's words: first degenerate check on `(other.from, self.to)`, then
on `(other.to, self.from)`, otherwise intersect bound-wise. -/
def constrainSpec (self other : Range) : Range :=
  match other.from', self.to' with
  | some f, some t =>
    if t ≤ f then ⟨some t, some t⟩
    else
      match other.to', self.from' with
      | some t2, some f2 =>
        if t2 ≤ f2 then ⟨some f2, some f2⟩
        else ⟨optFrom self.from' other.from', optTo self.to' other.to'⟩
      | _, _ => ⟨optFrom self.from' other.from', optTo self.to' other.to'⟩
  | _, _ =>
    match other.to', self.from' with
    | some t2, some f2 =>
      if t2 ≤ f2 then ⟨some f2, some f2⟩
      else ⟨optFrom self.from' other.from', optTo self.to' other.to'⟩
    | _, _ => ⟨optFrom self.from' other.from', optTo self.to' other.to'⟩

/-- C5: for a `Range` with both bounds present and `from > to`,
`clamp` returns `to` for every input `x`: the `from` bound is applied
first (from below) and the `to` bound last (from above). -/
theorem C5_contradictory_range_clamps_to (f t x : ℚ) (h : t < f) :
    Range.clamp ⟨some f, some t⟩ x = t := by
  show min ((some t).getD _) (max ((some f).getD x) x) = t
  simp only [Option.getD_some]
  exact min_eq_left (le_trans h.le (le_max_left f x))

/-- Witness for C5 at `f = 1`, `t = 0`, `x = 5`. -/
theorem C5_witness :
    (0 : ℚ) < 1 ∧ Range.clamp ⟨some 1, some 0⟩ 5 = 0 :=
  ⟨by norm_num, C5_contradictory_range_clamps_to 1 0 5 (by norm_num)⟩

/-- C6 counterexample: for the contradictory range `r = (from 1, to 0)`,
`r.constrain r` collapses to `(to 0, to 0) ≠ r`, so `constrain` composed
with itself is not the identity on every `Range`. -/
theorem C6_counterexample :
    Range.constrain ⟨some 1, some 0⟩ ⟨some 1, some 0⟩ ≠ ⟨some 1, some 0⟩ := by
  decide

/-- C6 (amended): for every `Range` `r` whose bounds are not contradictory
(whenever both are present, `from ≤ to`), `r.constrain r = r`. -/
theorem C6_constrain_self (r : Range)
    (h : ∀ f t, r.from' = some f → r.to' = some t → f ≤ t) :
    r.constrain r = r := by
  obtain ⟨fo, to_⟩ := r
  cases fo with
  | none =>
    cases to_ with
    | none => rfl
    | some t =>
      simp [Range.constrain, Range.collapseHi, Range.collapseLo, optFrom,
        optTo]
  | some f =>
    cases to_ with
    | none =>
      simp [Range.constrain, Range.collapseHi, Range.collapseLo, optFrom,
        optTo]
    | some t =>
      have hft : f ≤ t := h f t rfl rfl
      by_cases heq : t ≤ f
      · have : f = t := le_antisymm hft heq
        subst this
        simp [Range.constrain, Range.collapseHi, Range.collapseLo]
      · simp [Range.constrain, Range.collapseHi, Range.collapseLo, optFrom,
          optTo, heq, le_of_not_le heq]

/-- Witness for C6 (amended) at `r = (from 0, to 1)`. -/
theorem C6_witness :
    (∀ f t : ℚ, some (0 : ℚ) = some f → some (1 : ℚ) = some t → f ≤ t) ∧
    Range.constrain ⟨some 0, some 1⟩ ⟨some 0, some 1⟩ = ⟨some 0, some 1⟩ := by
  refine ⟨?_, C6_constrain_self ⟨some 0, some 1⟩ ?_⟩ <;>
  · intro f t hf ht
    cases hf
    cases ht
    norm_num

/-- C7: `Range::constrain` computes exactly the spec's description:
collapse to `(self.to, self.to)` when `other.from ≥ self.to` (both
present), else to `(self.from, self.from)` when `other.to ≤ self.from`
(both present), otherwise intersect with max-of-from / min-of-to and
absent-handling. -/
theorem C7_constrain_characterization (self other : Range) :
    self.constrain other = constrainSpec self other := by
  obtain ⟨sf, st⟩ := self
  obtain ⟨of', ot⟩ := other
  cases of' <;> cases st <;> cases ot <;> cases sf <;>
    simp only [Range.constrain, Range.collapseHi, Range.collapseLo,
      constrainSpec, decide_eq_true_eq, ge_iff_le, Bool.false_eq_true,
      if_false] <;>
    split_ifs <;> simp_all

/-- The binary-search loop preserves its invariant and terminates with
two adjacent indices (`max_index - min_index == 1`). -/
theorem getLoop_inv {C : Type} (points : List (ℚ × C)) (i : ℚ) :
    ∀ n (s : LoopState C), s.maxIdx - s.minIdx = n → LoopInv points i s →
      LoopInv points i (getLoop points i s) ∧
      (getLoop points i s).maxIdx = (getLoop points i s).minIdx + 1 := by
  intro n
  induction n using Nat.strong_induction_on with
  | _ n ih =>
    intro s hn hinv
    obtain ⟨h1, h2, h3, h4, h5, h6⟩ := hinv
    rw [getLoop]
    by_cases hc : s.minIdx < s.maxIdx - 1
    · rw [dif_pos hc]
      have hltmax : s.minIdx + (s.maxIdx - s.minIdx) / 2 < s.maxIdx := by
        have := Nat.div_lt_self (show 0 < s.maxIdx - s.minIdx by omega)
          (show 1 < 2 by norm_num)
        omega
      have hgtmin : s.minIdx < s.minIdx + (s.maxIdx - s.minIdx) / 2 := by
        have := Nat.div_pos (show 2 ≤ s.maxIdx - s.minIdx by omega)
          (show 0 < 2 by norm_num)
        omega
      have hidxlen : s.minIdx + (s.maxIdx - s.minIdx) / 2 < points.length :=
        lt_trans hltmax h2
      have hpc : points.getD (s.minIdx + (s.maxIdx - s.minIdx) / 2)
          (s.minP, s.minC) = points[s.minIdx + (s.maxIdx - s.minIdx) / 2] := by
        rw [List.getD_eq_getElem?_getD, List.getElem?_eq_getElem hidxlen,
          Option.getD_some]
      rw [hpc]
      by_cases hcmp : i ≤ (points[s.minIdx + (s.maxIdx - s.minIdx) / 2]).1
      · rw [if_pos hcmp]
        apply ih ((s.minIdx + (s.maxIdx - s.minIdx) / 2) - s.minIdx)
          (by omega) _ rfl
        exact ⟨hgtmin, hidxlen, h3,
          by rw [List.getElem?_eq_getElem hidxlen], h5, hcmp⟩
      · rw [if_neg hcmp]
        apply ih (s.maxIdx - (s.minIdx + (s.maxIdx - s.minIdx) / 2))
          (by omega) _ rfl
        exact ⟨hltmax, h2, by rw [List.getElem?_eq_getElem hidxlen], h4,
          not_le.mp hcmp, h6⟩
    · rw [dif_neg hc]
      exact ⟨⟨h1, h2, h3, h4, h5, h6⟩, by omega⟩

/-- Interior lookups blend the values of an adjacent bracketing pair of
control points, with the factor taken between their positions. -/
theorem Gradient.get_bracket {C : Type} [Mix C] (g : Gradient C) (i : ℚ)
    (h1 : g.domain.1 < i) (h2 : i < g.domain.2) :
    ∃ j pj vj pj1 vj1,
      g.points[j]? = some (pj, vj) ∧
      g.points[j + 1]? = some (pj1, vj1) ∧
      pj < i ∧ i ≤ pj1 ∧
      g.get i = Mix.mix vj vj1 ((i - pj) / (pj1 - pj)) := by
  have hd1 : g.domain.1 = (g.points.head g.nonempty).1 := rfl
  have hd2 : g.domain.2 = (g.points.getLast g.nonempty).1 := rfl
  rw [hd1] at h1
  rw [hd2] at h2
  have hlenpos : 0 < g.points.length := List.length_pos.mpr g.nonempty
  have hHead : g.points[(0 : ℕ)]? = some (g.points.head g.nonempty) := by
    rw [List.getElem?_eq_getElem hlenpos, List.head_eq_getElem_zero]
  have hLast : g.points[g.points.length - 1]? =
      some (g.points.getLast g.nonempty) := by
    rw [List.getElem?_eq_getElem (show g.points.length - 1 <
        g.points.length by omega), List.getLast_eq_getElem]
  have hlen2 : 2 ≤ g.points.length := by
    by_contra hlt
    have h01 : g.points.length - 1 = 0 := by omega
    rw [h01, hHead] at hLast
    have hsame : g.points.head g.nonempty = g.points.getLast g.nonempty :=
      Option.some.inj hLast
    rw [hsame] at h1
    exact absurd (lt_trans h1 h2) (lt_irrefl _)
  have hinv0 : LoopInv g.points i g.getLoopInit :=
    ⟨(by omega : (0 : ℕ) < g.points.length - 1),
     (by omega : g.points.length - 1 < g.points.length),
     by
       show g.points[(0 : ℕ)]? = some ((g.points.head g.nonempty).1,
         (g.points.head g.nonempty).2)
       rw [Prod.mk.eta]
       exact hHead,
     by
       show g.points[g.points.length - 1]? =
         some ((g.points.getLast g.nonempty).1,
           (g.points.getLast g.nonempty).2)
       rw [Prod.mk.eta]
       exact hLast,
     h1, le_of_lt h2⟩
  obtain ⟨⟨hf1, hf2, hf3, hf4, hf5, hf6⟩, hadj⟩ :=
    getLoop_inv g.points i _ g.getLoopInit rfl hinv0
  refine ⟨(getLoop g.points i g.getLoopInit).minIdx,
    (getLoop g.points i g.getLoopInit).minP,
    (getLoop g.points i g.getLoopInit).minC,
    (getLoop g.points i g.getLoopInit).maxP,
    (getLoop g.points i g.getLoopInit).maxC, hf3,
    by rw [← hadj]; exact hf4, hf5, hf6, ?_⟩
  simp only [Gradient.get]
  rw [if_neg (not_le.mpr h1), if_neg (not_le.mpr h2)]

/-- Positions at or below the first control point return its value. -/
theorem Gradient.get_of_le_first {C : Type} [Mix C] (g : Gradient C)
    (p : ℚ) (hp : p ≤ (g.points.head g.nonempty).1) :
    g.get p = (g.points.head g.nonempty).2 := by
  simp only [Gradient.get]
  rw [if_pos hp]

/-- Positions at or above the last control point (and strictly above the
first) return the last control point's value. -/
theorem Gradient.get_of_ge_last {C : Type} [Mix C] (g : Gradient C)
    (p : ℚ) (hlo : (g.points.head g.nonempty).1 < p)
    (hhi : (g.points.getLast g.nonempty).1 ≤ p) :
    g.get p = (g.points.getLast g.nonempty).2 := by
  simp only [Gradient.get]
  rw [if_neg (not_le.mpr hlo), if_pos (show p ≥ _ from hhi)]

/-- `Gradient::new` keeps the input length. -/
theorem Gradient.new_length {C : Type} [Mix C] (colors : List C)
    (h : colors ≠ []) :
    (Gradient.new colors h).points.length = colors.length := by
  simp [Gradient.new]

/-- `Gradient::new` places value `i` at position `i * step_size` with
`step_size = 1 / max(len - 1, 1)`. -/
theorem Gradient.new_points {C : Type} [Mix C] (colors : List C)
    (h : colors ≠ []) (i : Nat) (hi : i < colors.length) :
    (Gradient.new colors h).points[i]? =
      some ((i : ℚ) * (1 / ((max (colors.length - 1) 1 : ℕ) : ℚ)),
        colors.get ⟨i, hi⟩) := by
  simp [Gradient.new, List.getElem?_enum, List.getElem?_eq_getElem hi]

/-- C1 counterexample: for the validly sorted degenerate gradient with
control points `(0, 7), (0, 9)` (so `lo = hi = 0`), the position `p = 0`
satisfies `p ≥ hi`, yet `get` returns the first value `7`, not the last
value `9`: the `p ≤ lo` clause wins in the overlap. -/
theorem C1_counterexample :
    gradDup.domain.2 ≤ 0 ∧
    (gradDup.points.getLast gradDup.nonempty).2 = 9 ∧
    gradDup.get 0 = 7 := by
  refine ⟨by decide, by decide, by decide⟩

/-- C1 (amended): `get(p)` returns the first control point's value
whenever `p ≤ lo`; and it returns the last control point's value whenever
`p ≥ hi`, provided additionally `p > lo` (the first clause takes
precedence when both apply, as for degenerate domains with `lo = hi`). -/
theorem C1_boundary_clamp {C : Type} [Mix C] (g : Gradient C) (p : ℚ) :
    (p ≤ g.domain.1 → g.get p = (g.points.head g.nonempty).2) ∧
    (g.domain.1 < p → g.domain.2 ≤ p →
      g.get p = (g.points.getLast g.nonempty).2) := by
  have hd1 : g.domain.1 = (g.points.head g.nonempty).1 := rfl
  have hd2 : g.domain.2 = (g.points.getLast g.nonempty).1 := rfl
  constructor
  · intro hp
    rw [hd1] at hp
    simp only [Gradient.get]
    rw [if_pos hp]
  · intro hlo hhi
    rw [hd1] at hlo
    rw [hd2] at hhi
    simp only [Gradient.get]
    rw [if_neg (not_le.mpr hlo), if_pos (show p ≥ _ from hhi)]

/-- Witness for C1 (amended) on the two-stop gradient, at `p = -5` (below
the domain) and `p = 5` (above the domain). -/
theorem C1_witness :
    gradTwo.get (-5) = (gradTwo.points.head gradTwo.nonempty).2 ∧
    gradTwo.get 5 = (gradTwo.points.getLast gradTwo.nonempty).2 :=
  ⟨(C1_boundary_clamp gradTwo (-5)).1 (by decide),
   (C1_boundary_clamp gradTwo 5).2 (by decide) (by decide)⟩

/-- C2: for a gradient sorted by non-decreasing position and a position
strictly inside the domain, `get` locates an adjacent bracketing pair
`(min_pos, min_val)`, `(max_pos, max_val)`, computes
`factor = (position - min_pos) / (max_pos - min_pos)` (which the blend
clamps to `[0, 1]`, a no-op here), and returns the blend. -/
theorem C2_binary_search_blend {C : Type} [Mix C] (g : Gradient C)
    (hsorted : g.points.Chain' (fun a b => a.1 ≤ b.1))
    (i : ℚ) (h1 : g.domain.1 < i) (h2 : i < g.domain.2) :
    ∃ j pj vj pj1 vj1,
      g.points[j]? = some (pj, vj) ∧
      g.points[j + 1]? = some (pj1, vj1) ∧
      pj < i ∧ i ≤ pj1 ∧
      g.get i = Mix.mix vj vj1 (clampScalar ((i - pj) / (pj1 - pj)) 0 1) := by
  obtain ⟨j, pj, vj, pj1, vj1, hj, hj1, hlo, hhi, hget⟩ :=
    g.get_bracket i h1 h2
  refine ⟨j, pj, vj, pj1, vj1, hj, hj1, hlo, hhi, ?_⟩
  have hdpos : 0 < pj1 - pj := by
    have := lt_of_lt_of_le hlo hhi
    linarith
  have hf0 : 0 < (i - pj) / (pj1 - pj) := div_pos (by linarith) hdpos
  have hf1 : (i - pj) / (pj1 - pj) ≤ 1 := by
    rw [div_le_one hdpos]
    linarith
  have hfac : clampScalar ((i - pj) / (pj1 - pj)) 0 1 =
      (i - pj) / (pj1 - pj) := by
    unfold clampScalar
    rw [if_neg (not_lt.mpr hf0.le), if_neg (not_lt.mpr hf1)]
  rw [hfac]
  exact hget

/-- Witness for C2 on the two-stop gradient at `i = 1`. -/
theorem C2_witness :
    gradTwo.points.Chain' (fun a b => a.1 ≤ b.1) ∧
    gradTwo.domain.1 < 1 ∧ (1 : ℚ) < gradTwo.domain.2 ∧
    ∃ j pj vj pj1 vj1,
      gradTwo.points[j]? = some (pj, vj) ∧
      gradTwo.points[j + 1]? = some (pj1, vj1) ∧
      pj < 1 ∧ (1 : ℚ) ≤ pj1 ∧
      gradTwo.get 1 =
        Mix.mix vj vj1 (clampScalar ((1 - pj) / (pj1 - pj)) 0 1) := by
  have hchain : gradTwo.points.Chain' (fun a b => a.1 ≤ b.1) := by
    show List.Chain' _ [((0 : ℚ), (1 : ℚ)), (2, 0)]
    rw [List.chain'_pair]
    norm_num
  exact ⟨hchain, by decide, by decide,
    C2_binary_search_blend gradTwo hchain 1 (by decide) (by decide)⟩

/-- C4: constructing a gradient from `k ≥ 1` evenly spaced values places
control point `i` at position `i/(k-1)` (position `0` when `k = 1`), and
`get` at that position returns the `i`-th input value exactly, given that
the blend returns its second argument at factor `1` (as the affine blend
`a + f*(b-a)` does over the exact scalar model). -/
theorem C4_even_spacing_roundtrip {C : Type} [Mix C]
    (hmix : ∀ a b : C, Mix.mix a b 1 = b)
    (colors : List C) (h : colors ≠ []) (i : Nat)
    (hi : i < colors.length) :
    (Gradient.new colors h).points[i]? =
      some ((if colors.length = 1 then 0 else
        (i : ℚ) / ((colors.length - 1 : ℕ) : ℚ)), colors.get ⟨i, hi⟩) ∧
    (Gradient.new colors h).get
        (if colors.length = 1 then 0 else
          (i : ℚ) / ((colors.length - 1 : ℕ) : ℚ)) = colors.get ⟨i, hi⟩ := by
  by_cases h1 : colors.length = 1
  · have hi0 : i = 0 := by omega
    subst hi0
    rw [if_pos h1]
    have hstep : ((max (colors.length - 1) 1 : ℕ) : ℚ) = 1 := by
      rw [h1]
      norm_num
    have hpt0 := Gradient.new_points colors h 0 hi
    rw [hstep] at hpt0
    norm_num at hpt0
    refine ⟨hpt0, ?_⟩
    have hlenpos : 0 < (Gradient.new colors h).points.length := by
      rw [Gradient.new_length]
      omega
    have hhead : (Gradient.new colors h).points.head
        (Gradient.new colors h).nonempty = (0, colors.get ⟨0, hi⟩) := by
      rw [List.head_eq_getElem_zero]
      have := List.getElem?_eq_getElem hlenpos
      rw [hpt0] at this
      exact (Option.some.inj this).symm
    rw [Gradient.get_of_le_first _ 0 (by rw [hhead]), hhead]
  · -- k ≥ 2
    have hk2 : 2 ≤ colors.length := by
      have h0 : 0 < colors.length := List.length_pos.mpr h
      omega
    have hmax : max (colors.length - 1) 1 = colors.length - 1 := by omega
    have hK : (0 : ℚ) < ((colors.length - 1 : ℕ) : ℚ) := by
      have : 0 < colors.length - 1 := by omega
      exact_mod_cast this
    have hpos : ∀ j (hj : j < colors.length),
        (Gradient.new colors h).points[j]? =
          some ((j : ℚ) / ((colors.length - 1 : ℕ) : ℚ),
            colors.get ⟨j, hj⟩) := by
      intro j hj
      rw [Gradient.new_points colors h j hj, hmax, mul_one_div]
    rw [if_neg h1]
    refine ⟨hpos i hi, ?_⟩
    have h0lt : 0 < colors.length := by omega
    have hsub : colors.length - 1 < colors.length := by omega
    have hlenpos : 0 < (Gradient.new colors h).points.length := by
      rw [Gradient.new_length]
      omega
    have hlast_lt : (Gradient.new colors h).points.length - 1 <
        (Gradient.new colors h).points.length := by omega
    have hhead : (Gradient.new colors h).points.head
        (Gradient.new colors h).nonempty =
        (0, colors.get ⟨0, h0lt⟩) := by
      rw [List.head_eq_getElem_zero]
      have h0 := hpos 0 h0lt
      rw [List.getElem?_eq_getElem hlenpos] at h0
      have := Option.some.inj h0
      rw [this]
      norm_num
    have hlastidx : (Gradient.new colors h).points.length - 1 =
        colors.length - 1 := by
      rw [Gradient.new_length]
    have hl2 : (Gradient.new colors h).points[
        (Gradient.new colors h).points.length - 1]? =
        some (1, colors.get ⟨colors.length - 1, hsub⟩) := by
      rw [hlastidx, hpos (colors.length - 1) hsub, div_self hK.ne']
    have hlast : (Gradient.new colors h).points.getLast
        (Gradient.new colors h).nonempty =
        (1, colors.get ⟨colors.length - 1, hsub⟩) := by
      rw [List.getLast_eq_getElem]
      have hsome := List.getElem?_eq_getElem hlast_lt
      rw [hl2] at hsome
      exact (Option.some.inj hsome).symm
    by_cases hi0 : i = 0
    · subst hi0
      rw [Gradient.get_of_le_first _ _ (by rw [hhead]; norm_num), hhead]
    · by_cases hilast : i = colors.length - 1
      · subst hilast
        rw [div_self hK.ne',
          Gradient.get_of_ge_last _ _ (by rw [hhead]; norm_num)
            (by rw [hlast]), hlast]
      · -- strictly interior control point
        have hilt : i < colors.length - 1 := by omega
        have hipos : 0 < i := Nat.pos_of_ne_zero hi0
        have hq1 : (Gradient.new colors h).domain.1 <
            (i : ℚ) / ((colors.length - 1 : ℕ) : ℚ) := by
          show ((Gradient.new colors h).points.head _).1 < _
          rw [hhead]
          exact div_pos (by exact_mod_cast hipos) hK
        have hq2 : (i : ℚ) / ((colors.length - 1 : ℕ) : ℚ) <
            (Gradient.new colors h).domain.2 := by
          show _ < ((Gradient.new colors h).points.getLast _).1
          rw [hlast]
          rw [div_lt_one hK]
          exact_mod_cast hilt
        obtain ⟨j, pj, vj, pj1, vj1, hj, hj1, hlo, hhi, hget⟩ :=
          (Gradient.new colors h).get_bracket _ hq1 hq2
        have hj1lt : j + 1 < colors.length := by
          by_contra hge
          have hnone : (Gradient.new colors h).points[j + 1]? = none :=
            List.getElem?_eq_none (by rw [Gradient.new_length]; omega)
          rw [hnone] at hj1
          exact Option.noConfusion hj1
        have hjlt : j < colors.length := by omega
        rw [hpos j hjlt] at hj
        rw [hpos (j + 1) hj1lt] at hj1
        obtain ⟨hpj, hvj⟩ := Prod.mk.injEq .. ▸ Option.some.inj hj
        obtain ⟨hpj1, hvj1⟩ := Prod.mk.injEq .. ▸ Option.some.inj hj1
        have hjlti : j < i := by
          have := hlo
          rw [← hpj] at this
          have hcast : (j : ℚ) < (i : ℚ) :=
            (div_lt_div_iff_of_pos_right hK).mp this
          exact_mod_cast hcast
        have hilej1 : i ≤ j + 1 := by
          have := hhi
          rw [← hpj1] at this
          have hcast : (i : ℚ) ≤ ((j + 1 : ℕ) : ℚ) := by
            have := (div_le_div_iff_of_pos_right hK).mp this
            exact_mod_cast this
          exact_mod_cast hcast
        have hij : i = j + 1 := by omega
        subst hij
        have hfac : (((j + 1 : ℕ) : ℚ) / ((colors.length - 1 : ℕ) : ℚ) -
            pj) / (pj1 - pj) = 1 := by
          rw [hpj1]
          exact div_self (sub_ne_zero.mpr
            (ne_of_gt (lt_of_lt_of_le hlo hhi)))
        rw [hget, hfac, hmix, ← hvj1]

/-- Witness for C4 on three evenly spaced values, at `i = 1`. -/
theorem C4_witness :
    (Gradient.new colorsThree (by simp [colorsThree])).points[1]? =
      some ((if colorsThree.length = 1 then 0 else
        ((1 : ℕ) : ℚ) / ((colorsThree.length - 1 : ℕ) : ℚ)),
        colorsThree.get ⟨1, by norm_num [colorsThree]⟩) ∧
    (Gradient.new colorsThree (by simp [colorsThree])).get
        (if colorsThree.length = 1 then 0 else
          ((1 : ℕ) : ℚ) / ((colorsThree.length - 1 : ℕ) : ℚ)) =
      colorsThree.get ⟨1, by norm_num [colorsThree]⟩ :=
  C4_even_spacing_roundtrip
    (by
      intro a b
      show a + clampScalar 1 0 1 * (b - a) = b
      norm_num [clampScalar])
    colorsThree (by simp [colorsThree]) 1 (by norm_num [colorsThree])

/-- `next` yields `sample from_head` and bumps `from_head`. -/
theorem Take.next_eq {C : Type} [Mix C] (t : Take C) :
    t.next = if t.from_head + t.from_end < t.len then
      some (t.sample t.from_head, { t with from_head := t.from_head + 1 })
    else none := by
  unfold Take.next Take.sample
  by_cases h1 : t.from_head + t.from_end < t.len
  · rw [if_pos h1, if_pos h1]
    by_cases h2 : t.len = 1
    · rw [if_pos h2, if_pos h2]
    · rw [if_neg h2, if_neg h2]
  · rw [if_neg h1, if_neg h1]

/-- `next_back` yields `sample (len - from_end - 1)` and bumps
`from_end`. -/
theorem Take.next_back_eq {C : Type} [Mix C] (t : Take C) :
    t.next_back = if t.from_head + t.from_end < t.len then
      some (t.sample (t.len - t.from_end - 1),
        { t with from_end := t.from_end + 1 })
    else none := by
  unfold Take.next_back Take.sample
  by_cases h1 : t.from_head + t.from_end < t.len
  · rw [if_pos h1, if_pos h1]
    by_cases h2 : t.len = 1
    · rw [if_pos h2, if_pos h2]
    · rw [if_neg h2, if_neg h2]
  · rw [if_neg h1, if_neg h1]

/-- A successful `next` call: the guard held and only `from_head` was
bumped. -/
theorem Take.next_some {C : Type} [Mix C] {t t' : Take C} {c : C}
    (h : t.next = some (c, t')) :
    t.from_head + t.from_end < t.len ∧
    t' = { t with from_head := t.from_head + 1 } := by
  rw [Take.next_eq] at h
  by_cases hc : t.from_head + t.from_end < t.len
  · rw [if_pos hc] at h
    exact ⟨hc, ((Prod.mk.injEq _ _ _ _).mp (Option.some.inj h)).2.symm⟩
  · rw [if_neg hc] at h
    exact Option.noConfusion h

/-- A successful `next_back` call: the guard held and only `from_end`
was bumped. -/
theorem Take.next_back_some {C : Type} [Mix C] {t t' : Take C} {c : C}
    (h : t.next_back = some (c, t')) :
    t.from_head + t.from_end < t.len ∧
    t' = { t with from_end := t.from_end + 1 } := by
  rw [Take.next_back_eq] at h
  by_cases hc : t.from_head + t.from_end < t.len
  · rw [if_pos hc] at h
    exact ⟨hc, ((Prod.mk.injEq _ _ _ _).mp (Option.some.inj h)).2.symm⟩
  · rw [if_neg hc] at h
    exact Option.noConfusion h

/-- `next` is exhausted exactly when the guard fails. -/
theorem Take.next_eq_none_iff {C : Type} [Mix C] (t : Take C) :
    t.next = none ↔ ¬ (t.from_head + t.from_end < t.len) := by
  rw [Take.next_eq]
  by_cases hc : t.from_head + t.from_end < t.len
  · rw [if_pos hc]
    simp [hc]
  · rw [if_neg hc]
    simp [hc]

/-- `next_back` is exhausted exactly when the guard fails. -/
theorem Take.next_back_eq_none_iff {C : Type} [Mix C] (t : Take C) :
    t.next_back = none ↔ ¬ (t.from_head + t.from_end < t.len) := by
  rw [Take.next_back_eq]
  by_cases hc : t.from_head + t.from_end < t.len
  · rw [if_pos hc]
    simp [hc]
  · rw [if_neg hc]
    simp [hc]

/-- Unfolding `collect` on an exhausted iterator. -/
theorem Take.collect_none {C : Type} [Mix C] (t : Take C)
    (h : t.next = none) : t.collect = [] := by
  rw [Take.collect]
  split
  · rfl
  · rename_i ct heq
    rw [h] at heq
    exact Option.noConfusion heq

/-- Unfolding `collect` on a productive iterator. -/
theorem Take.collect_some {C : Type} [Mix C] (t : Take C) (c : C)
    (t' : Take C) (h : t.next = some (c, t')) :
    t.collect = c :: t'.collect := by
  rw [Take.collect]
  split
  · rename_i heq
    rw [h] at heq
    exact Option.noConfusion heq
  · rename_i ct heq
    rw [h] at heq
    obtain rfl := Option.some.inj heq
    rfl

/-- Unfolding `collect_back` on an exhausted iterator. -/
theorem Take.collect_back_none {C : Type} [Mix C] (t : Take C)
    (h : t.next_back = none) : t.collect_back = [] := by
  rw [Take.collect_back]
  split
  · rfl
  · rename_i ct heq
    rw [h] at heq
    exact Option.noConfusion heq

/-- Unfolding `collect_back` on a productive iterator. -/
theorem Take.collect_back_some {C : Type} [Mix C] (t : Take C) (c : C)
    (t' : Take C) (h : t.next_back = some (c, t')) :
    t.collect_back = c :: t'.collect_back := by
  rw [Take.collect_back]
  split
  · rename_i heq
    rw [h] at heq
    exact Option.noConfusion heq
  · rename_i ct heq
    rw [h] at heq
    obtain rfl := Option.some.inj heq
    rfl

/-- Forward reading lists the samples `from_head, …, len - from_end - 1`
in increasing index order. -/
theorem Take.collect_eq {C : Type} [Mix C] :
    ∀ (n : Nat) (t : Take C), t.len - t.from_head - t.from_end = n →
      t.collect = (List.range' t.from_head n).map t.sample := by
  intro n
  induction n with
  | zero =>
    intro t hn
    have hnone : t.next = none := (Take.next_eq_none_iff t).mpr (by omega)
    rw [Take.collect_none t hnone]
    rfl
  | succ n ih =>
    intro t hn
    have hlt : t.from_head + t.from_end < t.len := by omega
    have hsome : t.next = some (t.sample t.from_head,
        { t with from_head := t.from_head + 1 }) := by
      rw [Take.next_eq, if_pos hlt]
    rw [Take.collect_some t _ _ hsome, List.range'_succ, List.map_cons]
    congr 1
    have hrec := ih { t with from_head := t.from_head + 1 } (by simp; omega)
    rw [hrec]
    rfl

/-- Backward reading lists the same samples in decreasing index order. -/
theorem Take.collect_back_eq {C : Type} [Mix C] :
    ∀ (n : Nat) (t : Take C), t.len - t.from_head - t.from_end = n →
      t.collect_back = ((List.range' t.from_head n).map t.sample).reverse := by
  intro n
  induction n with
  | zero =>
    intro t hn
    have hnone : t.next_back = none :=
      (Take.next_back_eq_none_iff t).mpr (by omega)
    rw [Take.collect_back_none t hnone]
    rfl
  | succ n ih =>
    intro t hn
    have hlt : t.from_head + t.from_end < t.len := by omega
    have hsome : t.next_back = some (t.sample (t.len - t.from_end - 1),
        { t with from_end := t.from_end + 1 }) := by
      rw [Take.next_back_eq, if_pos hlt]
    rw [Take.collect_back_some t _ _ hsome]
    have hrec := ih { t with from_end := t.from_end + 1 } (by simp; omega)
    rw [hrec]
    rw [List.range'_1_concat, List.map_append, List.reverse_append]
    have hidx : t.from_head + n = t.len - t.from_end - 1 := by omega
    simp only [List.map_cons, List.map_nil, List.reverse_cons,
      List.reverse_nil, List.nil_append, List.singleton_append]
    rw [hidx]
    rfl

/-- C3: reading a `Take` fully forward and reversing the resulting list
yields exactly the list obtained by reading it fully backward, for every
state (in particular for fresh iterators of any requested length `n`,
including `n = 0` and `n = 1`). -/
theorem C3_reversal_law {C : Type} [Mix C] (t : Take C) :
    t.collect.reverse = t.collect_back := by
  rw [Take.collect_eq (t.len - t.from_head - t.from_end) t rfl,
    Take.collect_back_eq (t.len - t.from_head - t.from_end) t rfl]

/-- Every reachable `Take` state keeps `from_head + from_end ≤ len`. -/
theorem Take.reachable_head_end_le {C : Type} [Mix C] {t : Take C}
    (hr : t.Reachable) : t.from_head + t.from_end ≤ t.len := by
  induction hr with
  | fresh_gradient g n => exact Nat.zero_add 0 ▸ Nat.zero_le n
  | fresh_slice s n => exact Nat.zero_add 0 ▸ Nat.zero_le n
  | step hr hnext ih =>
    obtain ⟨hlt, rfl⟩ := Take.next_some hnext
    simp only
    omega
  | step_back hr hnext ih =>
    obtain ⟨hlt, rfl⟩ := Take.next_back_some hnext
    simp only
    omega

/-- C8: at every reachable state of a `Take` iterator, `size_hint`
reports exactly `n - from_head - from_end` (computed without
truncation) as both the lower and the upper bound, and that count is
exactly the number of elements still to be yielded. -/
theorem C8_size_hint_exact {C : Type} [Mix C] (t : Take C)
    (hr : t.Reachable) :
    ((t.size_hint.1 : ℤ) =
      (t.len : ℤ) - (t.from_head : ℤ) - (t.from_end : ℤ)) ∧
    t.size_hint.2 = some t.size_hint.1 ∧
    t.collect.length = t.size_hint.1 := by
  have hle := Take.reachable_head_end_le hr
  refine ⟨?_, rfl, ?_⟩
  · show (((t.len - t.from_head - t.from_end : ℕ) : ℤ)) = _
    omega
  · rw [Take.collect_eq (t.len - t.from_head - t.from_end) t rfl]
    simp [Take.size_hint]

/-- Witness for C8 on a fresh `take 3` of the two-stop gradient. -/
theorem C8_witness :
    (((gradTwo.take 3).size_hint.1 : ℤ) =
      ((gradTwo.take 3).len : ℤ) - ((gradTwo.take 3).from_head : ℤ) -
        ((gradTwo.take 3).from_end : ℤ)) ∧
    (gradTwo.take 3).size_hint.2 = some (gradTwo.take 3).size_hint.1 ∧
    (gradTwo.take 3).collect.length = (gradTwo.take 3).size_hint.1 :=
  C8_size_hint_exact (gradTwo.take 3)
    (Take.Reachable.fresh_gradient gradTwo 3)

/-- C9: a fresh `Take` with `n = 1` yields, both on a single `next` and
on a single `next_back`, exactly the source value at the `from` boundary
position, through the `len == 1` branch that performs no division by
`n - 1`. -/
theorem C9_single_sample {C : Type} [Mix C] (t : Take C)
    (hlen : t.len = 1) (hh : t.from_head = 0) (he : t.from_end = 0) :
    t.next = some (t.gradient.get t.from', { t with from_head := 1 }) ∧
    t.next_back = some (t.gradient.get t.from',
      { t with from_end := 1 }) := by
  constructor
  · unfold Take.next
    rw [if_pos (by omega), if_pos hlen, hh]
  · unfold Take.next_back
    rw [if_pos (by omega), if_pos hlen, he]

/-- Witness for C9 on `take 1` of the two-stop gradient. -/
theorem C9_witness :
    (gradTwo.take 1).next = some ((gradTwo.take 1).gradient.get
      (gradTwo.take 1).from', { gradTwo.take 1 with from_head := 1 }) ∧
    (gradTwo.take 1).next_back = some ((gradTwo.take 1).gradient.get
      (gradTwo.take 1).from', { gradTwo.take 1 with from_end := 1 }) :=
  C9_single_sample (gradTwo.take 1) rfl rfl rfl

/-- C10: for every `Take` built by `Gradient::take` or `Slice::take` and
evolved by any interleaving of `next`/`next_back`, the invariant
`from_head + from_end ≤ len` holds, so the `size_hint` subtraction never
truncates (no `usize` underflow), and once either direction reports
exhaustion the state is terminal for both directions. -/
theorem C10_take_invariant {C : Type} [Mix C] (t : Take C)
    (hr : t.Reachable) :
    t.from_head + t.from_end ≤ t.len ∧
    (((t.len - t.from_head - t.from_end : ℕ) : ℤ) =
      (t.len : ℤ) - (t.from_head : ℤ) - (t.from_end : ℤ)) ∧
    (t.next = none → t.next_back = none) ∧
    (t.next_back = none → t.next = none) := by
  have hle := Take.reachable_head_end_le hr
  refine ⟨hle, by omega, ?_, ?_⟩
  · intro hn
    exact (Take.next_back_eq_none_iff t).mpr
      ((Take.next_eq_none_iff t).mp hn)
  · intro hn
    exact (Take.next_eq_none_iff t).mpr
      ((Take.next_back_eq_none_iff t).mp hn)

/-- Witness for C10 on a fresh `take 0` of the two-stop gradient (both
directions are immediately exhausted). -/
theorem C10_witness :
    (gradTwo.take 0).from_head + (gradTwo.take 0).from_end ≤
      (gradTwo.take 0).len ∧
    ((((gradTwo.take 0).len - (gradTwo.take 0).from_head -
        (gradTwo.take 0).from_end : ℕ) : ℤ) =
      ((gradTwo.take 0).len : ℤ) - ((gradTwo.take 0).from_head : ℤ) -
        ((gradTwo.take 0).from_end : ℤ)) ∧
    ((gradTwo.take 0).next = none → (gradTwo.take 0).next_back = none) ∧
    ((gradTwo.take 0).next_back = none → (gradTwo.take 0).next = none) :=
  C10_take_invariant (gradTwo.take 0)
    (Take.Reachable.fresh_gradient gradTwo 0)

end Palette
